import Mathlib

/-!
Verification of the hybrid retrieval engine of beating-heart-nostr.

This file gives a shallow embedding, in Lean 4, of the pure core of the
repository: the overlap/lineage helpers of the ingestion pipeline
(main.go), the query matcher, the cached search, the live-search loops and
the search handler of the MCP server (mcp_server.go), and a small
interleaving machine for the RWMutex-guarded snippet cache.  Strings are
modelled as Lean strings (Go byte lengths coincide with character counts on
the ASCII inputs at stake); Go ints are modelled as Int; the network is
modelled by passing the per-relay delivered event streams as explicit
parameters (an unreachable relay is skipped by the code, which is the same
as a relay delivering no events).
-/

namespace BeatingHeart

/-- A Nostr event, restricted to the fields the searched code reads
(nostr.Event.ID, .PubKey, .Content, .Tags). -/
structure Event where
  id : String
  pubkey : String
  content : String
  tags : List (List String)
deriving DecidableEq, Repr

/-! ## Go string primitives used by the code -/

/-- Whitespace recognised by Go unicode.IsSpace, restricted to ASCII
(space, tab, newline, vertical tab, form feed, carriage return). -/
def goIsSpace (c : Char) : Bool :=
  c = ' ' ∨ c = '\t' ∨ c = '\n' ∨ c = '\x0b' ∨ c = '\x0c' ∨ c = '\r'

/-- strings.TrimSpace (ASCII fragment). -/
def goTrimSpace (s : String) : String :=
  String.mk (((s.data.dropWhile goIsSpace).reverse.dropWhile goIsSpace).reverse)

/-- strings.ToLower (ASCII fragment): Char.toLower maps exactly A-Z to a-z. -/
def goToLower (s : String) : String :=
  String.mk (s.data.map Char.toLower)

/-- Scanner for strings.Fields: cur accumulates the current word in
reverse; whitespace flushes it. -/
def goFieldsAux : List Char → List Char → List String
  | [], cur => if cur = [] then [] else [String.mk cur.reverse]
  | c :: rest, cur =>
    if goIsSpace c then
      if cur = [] then goFieldsAux rest []
      else String.mk cur.reverse :: goFieldsAux rest []
    else goFieldsAux rest (c :: cur)

/-- strings.Fields: substrings separated by maximal whitespace runs. -/
def goFields (s : String) : List String :=
  goFieldsAux s.data []

/-- Helper for strings.Contains on character lists: does needle occur as a
contiguous sublist of hay? -/
def listContains (needle : List Char) : List Char → Bool
  | [] => needle.isEmpty
  | c :: rest => needle.isPrefixOf (c :: rest) || listContains needle rest

/-- strings.Contains s sub. -/
def goContains (s sub : String) : Bool :=
  listContains sub.data s.data

/-- strings.EqualFold (ASCII fragment): case-insensitive equality. -/
def goEqualFold (a b : String) : Bool :=
  goToLower a = goToLower b

/-! ## main.go: extractParentHeaders and extractOverlap -/

/-- strings.Split on the single-character separator greater-than: the
parts between its occurrences, empties included. -/
def goSplitOnGt : List Char → List Char → List String
  | [], cur => [String.mk cur.reverse]
  | c :: rest, cur =>
    if c = '>' then String.mk cur.reverse :: goSplitOnGt rest []
    else goSplitOnGt rest (c :: cur)

/-- extractParentHeaders (main.go): split the lineage on the character
greater-than, trim each part, drop empties, rejoin; empty lineage renders
as the root marker. -/
def extractParentHeaders (lineage : String) : String :=
  if lineage = "" then "Root"
  else
    String.intercalate " > "
      (((goSplitOnGt lineage.data []).map goTrimSpace).filter (fun p => p ≠ ""))

/-- Whitespace recognised by the RE2 class backslash-s used in the
sentence-splitting regex of extractOverlap: tab, newline, form feed,
carriage return, space (note: no vertical tab, unlike unicode.IsSpace). -/
def regexIsSpace (c : Char) : Bool :=
  c = '\t' ∨ c = '\n' ∨ c = '\x0c' ∨ c = '\r' ∨ c = ' '

/-- One punctuation character of the regex class in extractOverlap. -/
def isSentencePunct (c : Char) : Bool :=
  c = '.' ∨ c = '!' ∨ c = '?'

/-- Is the first character of the list regex whitespace? -/
def headIsSpace : List Char → Bool
  | [] => false
  | d :: _ => regexIsSpace d

/-- regexp.MustCompile of punct-then-whitespace-run, method Split with -1:
scan left to right; a punctuation character followed by at least one
whitespace character ends the current sentence, and the punctuation
together with the maximal whitespace run is consumed as the separator
(the run one character at a time, via the skipping flag). -/
def splitSentencesAux : List Char → Bool → List Char → List (List Char)
  | [], _, cur => [cur.reverse]
  | c :: rest, skipping, cur =>
    if skipping && regexIsSpace c then splitSentencesAux rest true cur
    else if isSentencePunct c && headIsSpace rest then
      cur.reverse :: splitSentencesAux rest true []
    else
      splitSentencesAux rest false (c :: cur)

/-- The sentence list computed by extractOverlap from its input text. -/
def goSentences (text : String) : List String :=
  (splitSentencesAux text.data false []).map String.mk

/-- extractOverlap (main.go): last one or two sentences of a chunk. -/
def extractOverlap (text : String) : String :=
  let sentences := goSentences text
  if sentences.length ≤ 1 then text
  else if (sentences.getD (sentences.length - 1) "").length < 20 ∧
      sentences.length > 2 then
    String.intercalate ". " (sentences.drop (sentences.length - 2)) ++ "."
  else
    (sentences.getD (sentences.length - 1) "") ++ "."

/-! ## mcp_server.go: matchesQuery -/

/-- One iteration of the tag loops in matchesQuery: a tag with at least two
elements whose value (element 1), lowercased, contains the word. -/
def tagValueMatch (w : String) (tag : List String) : Bool :=
  if 2 ≤ tag.length then goContains (goToLower (tag.getD 1 "")) w else false

/-- matchesQuery (mcp_server.go): empty query matches everything; normalize
to lowercase/trimmed; a 2-to-10-character query is first checked directly
against content and all tag values; then any word of length at least 2 that
occurs in the content or a tag value matches; words-empty matches. -/
def matchesQuery (ev : Event) (query : String) : Bool :=
  if query = "" then true
  else
    let q := goToLower (goTrimSpace query)
    if (2 ≤ q.length ∧ q.length ≤ 10) ∧
        (goContains (goToLower ev.content) q || ev.tags.any (tagValueMatch q)) = true then
      true
    else
      let words := goFields q
      if words.isEmpty then true
      else
        words.any (fun w =>
          decide (2 ≤ w.length) &&
          (goContains (goToLower ev.content) w || ev.tags.any (tagValueMatch w)))

/-! ## mcp_server.go: searchCachedEvents -/

/-- One iteration of the language-tag loop in searchCachedEvents: a tag
with at least two elements, name (element 0) equal to the letter l, value
(element 1) case-insensitively equal to the language. -/
def isLangTag (language : String) (tag : List String) : Bool :=
  decide (2 ≤ tag.length) && decide (tag.getD 0 "" = "l") &&
    goEqualFold (tag.getD 1 "") language

/-- The three continue-guards of the loop body of searchCachedEvents. -/
def cacheEventMatches (language author query : String) (ev : Event) : Bool :=
  (language = "" || ev.tags.any (isLangTag language)) &&
  (author = "" || ev.pubkey = author) &&
  (query = "" || matchesQuery ev query)

/-- The scan loop of searchCachedEvents: append each matching event, break
as soon as the accumulated length reaches the limit. -/
def searchCachedGo (language author query : String) (limit : Int) :
    List Event → List Event → List Event
  | [], acc => acc
  | ev :: rest, acc =>
    if cacheEventMatches language author query ev then
      let acc' := acc ++ [ev]
      if (acc'.length : Int) ≥ limit then acc'
      else searchCachedGo language author query limit rest acc'
    else searchCachedGo language author query limit rest acc

/-- searchCachedEvents (mcp_server.go): empty cache short-circuits nil,
otherwise the scan loop from an empty accumulator. -/
def searchCachedEvents (cache : List Event) (language author query : String)
    (limit : Int) : List Event :=
  if cache.isEmpty then []
  else searchCachedGo language author query limit cache []

/-! ## mcp_server.go: live search loops

The network is modelled by the per-relay lists of delivered events; an
unreachable relay or failed subscription is skipped by the code, which is
observationally a relay delivering nothing. -/

/-- Per-relay event loop of searchRelayEvents: keep an event iff the query
is empty or matchesQuery holds; after every event (kept or not) break once
the accumulated length reaches the limit. -/
def relayInner (query : String) (limit : Int) :
    List Event → List Event → List Event
  | [], acc => acc
  | ev :: rest, acc =>
    let acc' := if query = "" || matchesQuery ev query then acc ++ [ev] else acc
    if (acc'.length : Int) ≥ limit then acc'
    else relayInner query limit rest acc'

/-- Relay loop of searchRelayEvents: stop contacting further relays once
the limit is reached. -/
def relayOuter (query : String) (limit : Int) :
    List (List Event) → List Event → List Event
  | [], acc => acc
  | resp :: rest, acc =>
    let acc' := relayInner query limit resp acc
    if (acc'.length : Int) ≥ limit then acc'
    else relayOuter query limit rest acc'

/-- Per-relay event loop of searchByQueryOnly: skip already-seen ids, keep
events passing matchesQuery, record their ids, break at the limit (the
limit test sits inside the match branch here). -/
def queryOnlyInner (query : String) (limit : Int) :
    List Event → List Event × List String → List Event × List String
  | [], st => st
  | ev :: rest, (acc, seen) =>
    if ev.id ∈ seen then queryOnlyInner query limit rest (acc, seen)
    else if matchesQuery ev query then
      let acc' := acc ++ [ev]
      let seen' := seen ++ [ev.id]
      if (acc'.length : Int) ≥ limit then (acc', seen')
      else queryOnlyInner query limit rest (acc', seen')
    else queryOnlyInner query limit rest (acc, seen)

/-- Relay loop of searchByQueryOnly. -/
def queryOnlyOuter (query : String) (limit : Int) :
    List (List Event) → List Event × List String → List Event × List String
  | [], st => st
  | resp :: rest, st =>
    let st' := queryOnlyInner query limit resp st
    if (st'.1.length : Int) ≥ limit then st'
    else queryOnlyOuter query limit rest st'

/-- searchByQueryOnly (mcp_server.go): re-check the cache first and return
its matches without touching the network when non-empty; otherwise run the
deduplicating relay loop.  The Bool records whether relays were contacted. -/
def searchByQueryOnly (cache : List Event) (qresponses : List (List Event))
    (query : String) (limit : Int) : List Event × Bool :=
  let cachedResults := searchCachedEvents cache "" "" query limit
  if cachedResults.length > 0 then (cachedResults, false)
  else ((queryOnlyOuter query limit qresponses ([], [])).1, true)

/-- searchRelayEvents (mcp_server.go): a query with no language and no
author is redirected to searchByQueryOnly; otherwise the targeted relay
loop runs (relay-side language/author filtering is the relays' own
behaviour, reflected in which events appear in the responses).  The Bool
records whether relays were contacted. -/
def searchRelayEvents (cache : List Event) (qresponses responses : List (List Event))
    (language author query : String) (limit : Int) : List Event × Bool :=
  if query ≠ "" ∧ language = "" ∧ author = "" then
    searchByQueryOnly cache qresponses query limit
  else
    (relayOuter query limit responses [], true)

/-! ## mcp_server.go: searchCodeSnippetsHandler -/

/-- The npub-decoding step of the handler: a non-empty author starting with
npub is replaced by its decoded form when decoding succeeds and kept
verbatim when it fails. -/
def processAuthor (decodeNpub : String → Option String) (author : String) : String :=
  if author ≠ "" ∧ "npub".isPrefixOf author then
    match decodeNpub author with
    | some decoded => decoded
    | none => author
  else author

/-- Outcome of the handler: a validation error, or the event list handed to
formatCodeSnippetResults together with a flag recording whether any live
relay was contacted. -/
inductive HandlerOutcome where
  | error (msg : String)
  | ok (events : List Event) (networkUsed : Bool)
deriving DecidableEq, Repr

/-- The validation error message of the handler. -/
def validationErrorMsg : String :=
  "at least one of \x27language\x27, \x27author\x27, or \x27query\x27 must be provided"

/-- searchCodeSnippetsHandler (mcp_server.go): validation, npub decoding,
cache lookup, then the cache-sufficient / cache-empty / merge branches. -/
def searchCodeSnippetsHandler (cache : List Event)
    (qresponses responses : List (List Event))
    (decodeNpub : String → Option String)
    (language author query : String) (limit : Int) : HandlerOutcome :=
  if language = "" ∧ author = "" ∧ query = "" then
    .error validationErrorMsg
  else
    let author := processAuthor decodeNpub author
    let cachedEvents := searchCachedEvents cache language author query limit
    if (cachedEvents.length : Int) ≥ limit then
      .ok cachedEvents false
    else if cachedEvents.length = 0 then
      if language = "" ∧ author = "" ∧ query ≠ "" then
        let r := searchByQueryOnly cache qresponses query limit
        .ok r.1 r.2
      else
        let r := searchRelayEvents cache qresponses responses language author query limit
        .ok r.1 r.2
    else
      let neededEvents := limit - (cachedEvents.length : Int)
      let r := searchRelayEvents cache qresponses responses language author query neededEvents
      let combined := cachedEvents ++ r.1
      let combined :=
        if (combined.length : Int) > limit then combined.take limit.toNat
        else combined
      .ok combined r.2

/-! ## mcp_server.go: updateCodeSnippetCache -/

/-- The collection loop of updateCodeSnippetCache: relays are contacted
sequentially, unreachable ones (none) are skipped, reachable ones append
all their delivered events. -/
def collectCycleEvents (responses : List (Option (List Event))) : List Event :=
  responses.foldl
    (fun acc r =>
      match r with
      | none => acc
      | some evs => acc ++ evs) []

/-- The cache update at the end of updateCodeSnippetCache: replace events
and timestamp together when at least one event was collected, leave the
cache untouched otherwise.  The pair is the cache state (events,
lastUpdate). -/
def updateCacheCycle (responses : List (Option (List Event))) (now : Nat)
    (old : List Event × Nat) : List Event × Nat :=
  let newEvents := collectCycleEvents responses
  if 0 < newEvents.length then (newEvents, now) else old

/-! ## The RWMutex cache machine

An interleaving model of the code around CodeSnippetCache: the writer is
updateCodeSnippetCache's critical section (Lock; events = newEvents;
lastUpdate = now; Unlock) run once per refresh cycle that collected
events, and the reader is searchCachedEvents's section (RLock; read
events; read lastUpdate implicitly via the shared struct; RUnlock).  The
two field writes and the two field reads are separate machine steps, so
the mixed state (new events, old timestamp) genuinely exists in the
machine; the RWMutex discipline (a reader cannot hold the lock while the
writer does, and vice versa) is what must make it unobservable. -/

/-- Writer program counter: idle, or inside the critical section carrying
the cycle payload, before/after each field write. -/
inductive WriterPc where
  | idle
  | locked (payload : List Event × Nat)
  | wroteEvents (payload : List Event × Nat)
  | wroteTs
deriving DecidableEq, Repr

/-- Reader program counter: idle, holding the read lock, after reading the
event list, after reading both fields. -/
inductive ReaderPc where
  | idle
  | locked
  | gotEvents (l : List Event)
  | gotBoth (l : List Event) (t : Nat)
deriving DecidableEq, Repr

/-- A configuration of the cache machine: the shared cache pair, the
writer and reader states, the refresh cycles not yet run, and the log of
completed reader observations. -/
structure CacheConfig where
  cache : List Event × Nat
  wpc : WriterPc
  pending : List (List Event × Nat)
  rpc : ReaderPc
  obs : List (List Event × Nat)
deriving DecidableEq, Repr

/-- One machine step.  Lock discipline: the writer acquires only when no
reader holds the read lock, a reader acquires only when the writer is not
in its critical section. -/
inductive CacheStep : CacheConfig → CacheConfig → Prop where
  | wAcq (c : CacheConfig) (p : List Event × Nat) (rest : List (List Event × Nat)) :
      c.wpc = .idle → c.rpc = .idle → c.pending = p :: rest →
      CacheStep c { c with wpc := .locked p, pending := rest }
  | wSetEvents (c : CacheConfig) (p : List Event × Nat) :
      c.wpc = .locked p →
      CacheStep c { c with cache := (p.1, c.cache.2), wpc := .wroteEvents p }
  | wSetTs (c : CacheConfig) (p : List Event × Nat) :
      c.wpc = .wroteEvents p →
      CacheStep c { c with cache := (c.cache.1, p.2), wpc := .wroteTs }
  | wRel (c : CacheConfig) :
      c.wpc = .wroteTs →
      CacheStep c { c with wpc := .idle }
  | rAcq (c : CacheConfig) :
      c.rpc = .idle → c.wpc = .idle →
      CacheStep c { c with rpc := .locked }
  | rReadEvents (c : CacheConfig) :
      c.rpc = .locked →
      CacheStep c { c with rpc := .gotEvents c.cache.1 }
  | rReadTs (c : CacheConfig) (l : List Event) :
      c.rpc = .gotEvents l →
      CacheStep c { c with rpc := .gotBoth l c.cache.2 }
  | rRel (c : CacheConfig) (l : List Event) (t : Nat) :
      c.rpc = .gotBoth l t →
      CacheStep c { c with rpc := .idle, obs := (l, t) :: c.obs }

/-- Initial configuration: cache c0, everything idle, the refresh cycles
that will run given as the pending list. -/
def cacheInit (c0 : List Event × Nat) (cycles : List (List Event × Nat)) : CacheConfig :=
  { cache := c0, wpc := .idle, pending := cycles, rpc := .idle, obs := [] }

/-- Reachability in the cache machine. -/
def CacheReach (c0 : List Event × Nat) (cycles : List (List Event × Nat))
    (c : CacheConfig) : Prop :=
  Relation.ReflTransGen CacheStep (cacheInit c0 cycles) c

/-- A consistent snapshot: the initial cache pair or the payload of some
refresh cycle, as a whole. -/
def ConsistentPair (c0 : List Event × Nat) (cycles : List (List Event × Nat))
    (p : List Event × Nat) : Prop :=
  p = c0 ∨ p ∈ cycles

/-- The inductive invariant of the cache machine. -/
def CacheInv (c0 : List Event × Nat) (cycles : List (List Event × Nat))
    (c : CacheConfig) : Prop :=
  ((c.wpc = .idle ∨ c.wpc = .wroteTs) → ConsistentPair c0 cycles c.cache) ∧
  (∀ p ∈ c.pending, p ∈ cycles) ∧
  (∀ p, c.wpc = .locked p → p ∈ cycles) ∧
  (∀ p, c.wpc = .wroteEvents p → p ∈ cycles ∧ c.cache.1 = p.1) ∧
  (c.rpc ≠ .idle → c.wpc = .idle) ∧
  (∀ l, c.rpc = .gotEvents l → l = c.cache.1) ∧
  (∀ l t, c.rpc = .gotBoth l t → ConsistentPair c0 cycles (l, t)) ∧
  (∀ p ∈ c.obs, ConsistentPair c0 cycles p)

/-! ## The query matcher as the specification states it -/

/-- The specification's notion of a hit: the word occurs (case-insensitively)
in the event content or in some tag value (a tag value being element 1 of a
tag with at least two elements). -/
def specFieldHit (w : String) (ev : Event) : Prop :=
  goContains (goToLower ev.content) w = true ∨
  ∃ tag ∈ ev.tags, 2 ≤ tag.length ∧ goContains (goToLower (tag.getD 1 "")) w = true

/-- The claim's description of the query matcher: empty query (also after
normalization); or a 2-to-10-character normalized query hitting directly;
or some word of the normalized query of length at least 2 hitting. -/
def specMatchesQuery (ev : Event) (query : String) : Prop :=
  query = "" ∨
  goToLower (goTrimSpace query) = "" ∨
  (2 ≤ (goToLower (goTrimSpace query)).length ∧
    (goToLower (goTrimSpace query)).length ≤ 10 ∧
    specFieldHit (goToLower (goTrimSpace query)) ev) ∨
  (∃ w ∈ goFields (goToLower (goTrimSpace query)), 2 ≤ w.length ∧ specFieldHit w ev)

/-! ## The overlap and lineage rules as the claims state them -/

/-- The claim's sentence split: a boundary is one of the literal two-character
separators period-space, bang-space, question-space. -/
def specSplitLiteral : List Char → List Char → List (List Char)
  | [], cur => [cur.reverse]
  | [c], cur => [(c :: cur).reverse]
  | c :: d :: rest, cur =>
    if isSentencePunct c && (d = ' ') then
      cur.reverse :: specSplitLiteral rest []
    else
      specSplitLiteral (d :: rest) (c :: cur)

/-- Overlap extraction exactly as claim C5 words it, with the literal
two-character boundaries. -/
def specOverlapClaim (text : String) : String :=
  let sentences := (specSplitLiteral text.data []).map String.mk
  if sentences.length ≤ 1 then text
  else if (sentences.getD (sentences.length - 1) "").length < 20 ∧
      sentences.length > 2 then
    String.intercalate ". " (sentences.drop (sentences.length - 2)) ++ "."
  else
    (sentences.getD (sentences.length - 1) "") ++ "."

/-- Overlap extraction as claim C5 amended: the boundary is a punctuation
character followed by a whitespace run (the run being consumed), the rest
of the rule unchanged; stated via the last sentence and the last two
sentences rather than positional indexing. -/
def specOverlapAmended (text : String) : String :=
  let sentences := goSentences text
  if sentences.length ≤ 1 then text
  else if (sentences.getLastD "").length < 20 ∧ 2 < sentences.length then
    String.intercalate ". " ((sentences.reverse.take 2).reverse) ++ "."
  else
    sentences.getLastD "" ++ "."

/-- Lineage flattening as claim C8 words it: split on the greater-than
delimiter, trim each part, drop the empty ones, rejoin. -/
def specLineageFlatten (lineage : String) : String :=
  if lineage = "" then "Root"
  else
    String.intercalate " > "
      ((goSplitOnGt lineage.data []).filterMap (fun part =>
        if goTrimSpace part = "" then none else some (goTrimSpace part)))

/-! ## Concrete events for the claims' examples -/

/-- A cached snippet event with language tag go, used in counterexamples
and witnesses. -/
def sampleEvent : Event :=
  { id := "id1", pubkey := "pkA", content := "hello world", tags := [["l", "go"]] }

/-- An event whose content mentions NDK in upper case. -/
def ndkEvent : Event :=
  { id := "id-ndk", pubkey := "pkB",
    content := "this client uses NDK internally for relay pools", tags := [] }

/-- An event unrelated to the query xyz123longword. -/
def unrelatedEvent : Event :=
  { id := "id-u", pubkey := "pkC", content := "a simple greeting printer",
    tags := [["description", "prints a greeting"]] }

/-! ## Character-level helper lemmas -/

/-- Char.ofNat of a valid codepoint round-trips through toNat. -/
theorem char_toNat_ofNat {n : Nat} (h : n.isValidChar) : (Char.ofNat n).toNat = n := by
  rw [Char.ofNat, dif_pos h]
  rfl

/-- ASCII lowercasing preserves whitespace-ness. -/
theorem goIsSpace_toLower (c : Char) : goIsSpace (Char.toLower c) = goIsSpace c := by
  unfold Char.toLower
  dsimp only
  split
  · next h =>
    have hval : (Char.ofNat (c.toNat + 32)).toNat = c.toNat + 32 :=
      char_toNat_ofNat (Or.inl (by omega))
    have hne : ∀ d : Char, d.toNat < 65 → ¬(Char.ofNat (c.toNat + 32) = d) := by
      intro d hd he
      rw [he] at hval
      omega
    have hnec : ∀ d : Char, d.toNat < 65 → ¬(c = d) := by
      intro d hd he
      rw [he] at h
      omega
    have h1 : goIsSpace (Char.ofNat (c.toNat + 32)) = false := by
      apply decide_eq_false
      rintro (h' | h' | h' | h' | h' | h')
      · exact hne ' ' (by decide) h'
      · exact hne '\t' (by decide) h'
      · exact hne '\n' (by decide) h'
      · exact hne '\x0b' (by decide) h'
      · exact hne '\x0c' (by decide) h'
      · exact hne '\r' (by decide) h'
    have h2 : goIsSpace c = false := by
      apply decide_eq_false
      rintro (h' | h' | h' | h' | h' | h')
      · exact hnec ' ' (by decide) h'
      · exact hnec '\t' (by decide) h'
      · exact hnec '\n' (by decide) h'
      · exact hnec '\x0b' (by decide) h'
      · exact hnec '\x0c' (by decide) h'
      · exact hnec '\r' (by decide) h'
    rw [h1, h2]
  · rfl

/-- If the fields scanner returns nothing, the word accumulator was empty
and every remaining character is whitespace. -/
theorem goFieldsAux_eq_nil :
    ∀ (l cur : List Char), goFieldsAux l cur = [] →
      cur = [] ∧ ∀ c ∈ l, goIsSpace c = true := by
  intro l
  induction l with
  | nil =>
    intro cur h
    simp only [goFieldsAux] at h
    split at h
    · next hcur => exact ⟨hcur, by simp⟩
    · simp at h
  | cons c rest ih =>
    intro cur h
    simp only [goFieldsAux] at h
    split at h
    · next hsp =>
      split at h
      · next hcur =>
        refine ⟨hcur, ?_⟩
        intro d hd
        rcases List.mem_cons.mp hd with rfl | hd
        · exact hsp
        · exact (ih [] h).2 d hd
      · simp at h
    · next hsp =>
      have := (ih (c :: cur) h).1
      simp at this

/-- The first character surviving dropWhile fails the predicate. -/
theorem dropWhile_head_false (p : Char → Bool) :
    ∀ (l : List Char) (c : Char) (rest : List Char),
      l.dropWhile p = c :: rest → p c = false := by
  intro l
  induction l with
  | nil => intro c rest h; simp [List.dropWhile] at h
  | cons d tl ih =>
    intro c rest h
    by_cases hd : p d = true
    · rw [List.dropWhile_cons_of_pos hd] at h
      exact ih c rest h
    · rw [List.dropWhile_cons_of_neg hd] at h
      obtain ⟨rfl, -⟩ := List.cons.inj h
      exact Bool.eq_false_iff.mpr hd

/-- A trimmed character list all of whose characters are whitespace is
empty. -/
theorem trim_data_all_space (l : List Char)
    (h : ∀ c ∈ ((l.dropWhile goIsSpace).reverse.dropWhile goIsSpace).reverse,
      goIsSpace c = true) :
    ((l.dropWhile goIsSpace).reverse.dropWhile goIsSpace).reverse = [] := by
  cases hd : (l.dropWhile goIsSpace).reverse.dropWhile goIsSpace with
  | nil => simp [hd]
  | cons d rest =>
    have hdf : goIsSpace d = false := dropWhile_head_false _ _ _ _ hd
    have hmem : d ∈ ((l.dropWhile goIsSpace).reverse.dropWhile goIsSpace).reverse := by
      rw [hd]; simp
    have := h d hmem
    rw [hdf] at this
    cases this

/-- If the normalized query has no fields, it is the empty string. -/
theorem fields_normalized_eq_nil (s : String)
    (h : goFields (goToLower (goTrimSpace s)) = []) :
    goToLower (goTrimSpace s) = "" := by
  have hall : ∀ c ∈ (goToLower (goTrimSpace s)).data, goIsSpace c = true :=
    (goFieldsAux_eq_nil _ _ h).2
  have hall2 : ∀ c ∈ (goTrimSpace s).data, goIsSpace c = true := by
    intro c hc
    have hmem : Char.toLower c ∈ ((goTrimSpace s).data.map Char.toLower) :=
      List.mem_map_of_mem _ hc
    have := hall (Char.toLower c) hmem
    rw [goIsSpace_toLower] at this
    exact this
  have htrim : ((s.data.dropWhile goIsSpace).reverse.dropWhile goIsSpace).reverse = [] :=
    trim_data_all_space s.data hall2
  show String.mk _ = ""
  rw [show goTrimSpace s = String.mk (((s.data.dropWhile goIsSpace).reverse.dropWhile goIsSpace).reverse) from rfl, htrim]
  rfl

/-- tagValueMatch unfolded to its two conjuncts. -/
theorem tagValueMatch_iff (w : String) (tag : List String) :
    tagValueMatch w tag = true ↔
      2 ≤ tag.length ∧ goContains (goToLower (tag.getD 1 "")) w = true := by
  unfold tagValueMatch
  split
  · next h => simp [h]
  · next h => simp [h]

/-- The Bool hit test of matchesQuery coincides with specFieldHit. -/
theorem fieldHit_iff (w : String) (ev : Event) :
    (goContains (goToLower ev.content) w || ev.tags.any (tagValueMatch w)) = true ↔
      specFieldHit w ev := by
  rw [Bool.or_eq_true, List.any_eq_true]
  unfold specFieldHit
  constructor
  · rintro (h | ⟨tag, htag, hm⟩)
    · exact Or.inl h
    · exact Or.inr ⟨tag, htag, (tagValueMatch_iff w tag).mp hm⟩
  · rintro (h | ⟨tag, htag, h1, h2⟩)
    · exact Or.inl h
    · exact Or.inr ⟨tag, htag, (tagValueMatch_iff w tag).mpr ⟨h1, h2⟩⟩

/-- matchesQuery agrees with the specification predicate on every event
and query. -/
theorem matchesQuery_iff_spec (ev : Event) (query : String) :
    matchesQuery ev query = true ↔ specMatchesQuery ev query := by
  unfold specMatchesQuery
  by_cases hq : query = ""
  · simp [matchesQuery, hq]
  · simp only [matchesQuery, if_neg hq]
    split
    · next hdir =>
      constructor
      · intro _
        right; right; left
        exact ⟨hdir.1.1, hdir.1.2, (fieldHit_iff _ ev).mp hdir.2⟩
      · intro _; rfl
    · next hdir =>
      split
      · next hw =>
        constructor
        · intro _
          right; left
          apply fields_normalized_eq_nil query
          simpa using hw
        · intro _; rfl
      · next hw =>
        rw [List.any_eq_true]
        constructor
        · rintro ⟨w, hwmem, hwp⟩
          rw [Bool.and_eq_true, decide_eq_true_eq] at hwp
          right; right; right
          exact ⟨w, hwmem, hwp.1, (fieldHit_iff w ev).mp hwp.2⟩
        · intro hspec
          rcases hspec with hq' | hnq' | ⟨h1, h2, h3⟩ | ⟨w, hwmem, hwl, hhit⟩
          · exact absurd hq' hq
          · exfalso
            apply hw
            rw [hnq']
            rfl
          · exact absurd ⟨⟨h1, h2⟩, (fieldHit_iff _ ev).mpr h3⟩ hdir
          · refine ⟨w, hwmem, ?_⟩
            rw [Bool.and_eq_true, decide_eq_true_eq]
            exact ⟨hwl, (fieldHit_iff w ev).mpr hhit⟩

/-- The cache scan never returns more than the limit when started below it. -/
theorem searchCachedGo_length_le (language author query : String) (limit : Int) :
    ∀ (l acc : List Event), (acc.length : Int) < limit →
      ((searchCachedGo language author query limit l acc).length : Int) ≤ limit := by
  intro l
  induction l with
  | nil => intro acc h; simpa [searchCachedGo] using le_of_lt h
  | cons ev rest ih =>
    intro acc h
    by_cases hm : cacheEventMatches language author query ev = true
    · by_cases hlim : ((acc ++ [ev]).length : Int) ≥ limit
      · simp only [searchCachedGo, hm, if_true, hlim]
        simp only [List.length_append, List.length_singleton] at hlim ⊢
        push_cast at h ⊢
        omega
      · simp only [searchCachedGo, hm, if_true, if_neg hlim]
        exact ih _ (lt_of_not_ge hlim)
    · simp only [searchCachedGo, if_neg hm]
      exact ih _ h

/-- When the cache holds enough matching events, the scan returns exactly
the limit. -/
theorem searchCachedGo_length_eq (language author query : String) (limit : Int) :
    ∀ (l acc : List Event), (acc.length : Int) < limit →
      (((l.filter (cacheEventMatches language author query)).length : Int) +
        (acc.length : Int) ≥ limit) →
      ((searchCachedGo language author query limit l acc).length : Int) = limit := by
  intro l
  induction l with
  | nil =>
    intro acc h hcnt
    simp only [List.filter_nil, List.length_nil] at hcnt
    omega
  | cons ev rest ih =>
    intro acc h hcnt
    by_cases hm : cacheEventMatches language author query ev = true
    · by_cases hlim : ((acc ++ [ev]).length : Int) ≥ limit
      · simp only [searchCachedGo, hm, if_true, hlim]
        simp only [List.length_append, List.length_singleton] at hlim ⊢
        push_cast at h hlim ⊢
        omega
      · simp only [searchCachedGo, hm, if_true, if_neg hlim]
        apply ih _ (lt_of_not_ge hlim)
        simp only [List.filter_cons, hm, if_true, List.length_cons,
          List.length_append, List.length_singleton] at hcnt ⊢
        push_cast at hcnt ⊢
        omega
    · simp only [searchCachedGo, if_neg hm]
      apply ih _ h
      simp only [List.filter_cons, hm] at hcnt
      simpa using hcnt

/-- The per-relay targeted loop never exceeds the limit when started below it. -/
theorem relayInner_length_le (query : String) (limit : Int) :
    ∀ (l acc : List Event), (acc.length : Int) < limit →
      ((relayInner query limit l acc).length : Int) ≤ limit := by
  intro l
  induction l with
  | nil => intro acc h; simpa [relayInner] using le_of_lt h
  | cons ev rest ih =>
    intro acc h
    by_cases hq : (query = "" || matchesQuery ev query) = true
    · by_cases hlim : ((acc ++ [ev]).length : Int) ≥ limit
      · simp only [relayInner, hq, if_true, hlim]
        simp only [List.length_append, List.length_singleton]
        push_cast at h ⊢
        omega
      · simp only [relayInner, hq, if_true, if_neg hlim]
        exact ih _ (lt_of_not_ge hlim)
    · have hlim2 : ¬((acc.length : Int) ≥ limit) := by omega
      simp only [relayInner, if_neg hq, if_neg hlim2]
      exact ih _ h

/-- The targeted relay loop never exceeds the limit when started below it. -/
theorem relayOuter_length_le (query : String) (limit : Int) :
    ∀ (rs : List (List Event)) (acc : List Event), (acc.length : Int) < limit →
      ((relayOuter query limit rs acc).length : Int) ≤ limit := by
  intro rs
  induction rs with
  | nil => intro acc h; simpa [relayOuter] using le_of_lt h
  | cons resp rest ih =>
    intro acc h
    by_cases hlim : ((relayInner query limit resp acc).length : Int) ≥ limit
    · simp only [relayOuter, hlim, if_true]
      exact relayInner_length_le query limit resp acc h
    · simp only [relayOuter, if_neg hlim]
      exact ih _ (lt_of_not_ge hlim)

/-- The per-relay query-only loop never exceeds the limit when started
below it. -/
theorem queryOnlyInner_length_le (query : String) (limit : Int) :
    ∀ (l acc : List Event) (seen : List String), (acc.length : Int) < limit →
      (((queryOnlyInner query limit l (acc, seen)).1.length : Int) ≤ limit) := by
  intro l
  induction l with
  | nil => intro acc seen h; simpa [queryOnlyInner] using le_of_lt h
  | cons ev rest ih =>
    intro acc seen h
    by_cases hseen : ev.id ∈ seen
    · simp only [queryOnlyInner, if_pos hseen]
      exact ih _ _ h
    · by_cases hq : matchesQuery ev query = true
      · by_cases hlim : ((acc ++ [ev]).length : Int) ≥ limit
        · simp only [queryOnlyInner, if_neg hseen, hq, if_true, hlim]
          simp only [List.length_append, List.length_singleton]
          push_cast at h ⊢
          omega
        · simp only [queryOnlyInner, if_neg hseen, hq, if_true, if_neg hlim]
          exact ih _ _ (lt_of_not_ge hlim)
      · simp only [queryOnlyInner, if_neg hseen, if_neg hq]
        exact ih _ _ h

/-- The query-only relay loop never exceeds the limit when started below it. -/
theorem queryOnlyOuter_length_le (query : String) (limit : Int) :
    ∀ (rs : List (List Event)) (st : List Event × List String),
      ((st.1.length : Int) < limit) →
      (((queryOnlyOuter query limit rs st).1.length : Int) ≤ limit) := by
  intro rs
  induction rs with
  | nil => intro st h; simpa [queryOnlyOuter] using le_of_lt h
  | cons resp rest ih =>
    intro st h
    by_cases hlim : (((queryOnlyInner query limit resp st).1.length : Int) ≥ limit)
    · simp only [queryOnlyOuter, if_pos hlim]
      obtain ⟨acc, seen⟩ := st
      exact queryOnlyInner_length_le query limit resp acc seen h
    · simp only [queryOnlyOuter, if_neg hlim]
      exact ih _ (lt_of_not_ge hlim)

/-- getD at the last position equals getLastD. -/
theorem getD_cons_length (d : String) :
    ∀ (l : List String) (c : String), (c :: l).getD l.length d = l.getLastD c := by
  intro l
  induction l with
  | nil => intro c; rfl
  | cons x xs ih =>
    intro c
    rw [show (x :: xs).length = xs.length + 1 from rfl, List.getD_cons_succ, ih x,
      List.getLastD_cons]

/-- getD at length minus one equals getLastD with default. -/
theorem getD_length_sub_one (l : List String) :
    l.getD (l.length - 1) "" = l.getLastD "" := by
  cases l with
  | nil => rfl
  | cons c rest =>
    rw [show (c :: rest).length - 1 = rest.length by simp, getD_cons_length,
      List.getLastD_cons]

/-- Dropping all but the final two elements is taking two from the end. -/
theorem drop_length_sub_two (l : List String) :
    l.drop (l.length - 2) = (l.reverse.take 2).reverse := by
  have h := List.rtake_eq_reverse_take_reverse (l := l) (n := 2)
  rw [List.rtake] at h
  exact h

/-- searchCachedEvents never exceeds a positive limit. -/
theorem searchCachedEvents_length_le (cache : List Event)
    (language author query : String) (limit : Int) (hlim : 1 ≤ limit) :
    ((searchCachedEvents cache language author query limit).length : Int) ≤ limit := by
  unfold searchCachedEvents
  split
  · simp only [List.length_nil]
    omega
  · apply searchCachedGo_length_le
    simp only [List.length_nil]
    omega

/-- searchByQueryOnly never exceeds a positive limit. -/
theorem searchByQueryOnly_length_le (cache : List Event)
    (qresponses : List (List Event)) (query : String) (limit : Int) (hlim : 1 ≤ limit) :
    (((searchByQueryOnly cache qresponses query limit).1.length : Int)) ≤ limit := by
  unfold searchByQueryOnly
  dsimp only
  split
  · exact searchCachedEvents_length_le cache "" "" query limit hlim
  · apply queryOnlyOuter_length_le
    simp only [List.length_nil]
    omega

/-- searchRelayEvents never exceeds a positive limit. -/
theorem searchRelayEvents_length_le (cache : List Event)
    (qresponses responses : List (List Event))
    (language author query : String) (limit : Int) (hlim : 1 ≤ limit) :
    (((searchRelayEvents cache qresponses responses language author query limit).1.length : Int)) ≤ limit := by
  unfold searchRelayEvents
  split
  · exact searchByQueryOnly_length_le cache qresponses query limit hlim
  · apply relayOuter_length_le
    simp only [List.length_nil]
    omega

/-- With a non-positive limit the cache scan stops right after its first
match: it returns exactly one event. -/
theorem searchCachedGo_limit_nonpos (language author query : String)
    (limit : Int) (hlim : limit ≤ 0) :
    ∀ l : List Event,
      (∃ ev ∈ l, cacheEventMatches language author query ev = true) →
      (searchCachedGo language author query limit l []).length = 1 := by
  intro l
  induction l with
  | nil =>
    rintro ⟨ev, hmem, -⟩
    cases hmem
  | cons ev rest ih =>
    rintro ⟨ev', hmem, hm⟩
    by_cases h : cacheEventMatches language author query ev = true
    · have hge : ((([] : List Event) ++ [ev]).length : Int) ≥ limit := by
        simp only [List.nil_append, List.length_singleton]
        omega
      simp only [searchCachedGo, h, if_true, if_pos hge]
      rfl
    · simp only [searchCachedGo, if_neg h]
      apply ih
      rcases List.mem_cons.mp hmem with rfl | hmem'
      · exact absurd hm h
      · exact ⟨ev', hmem', hm⟩

/-- The invariant holds in the initial configuration. -/
theorem cacheInv_init (c0 : List Event × Nat) (cycles : List (List Event × Nat)) :
    CacheInv c0 cycles (cacheInit c0 cycles) := by
  refine ⟨fun _ => Or.inl rfl, fun p hp => hp, ?_, ?_, ?_, ?_, ?_, ?_⟩ <;>
    simp [cacheInit]

/-- The invariant is preserved by every machine step. -/
theorem cacheInv_step (c0 : List Event × Nat) (cycles : List (List Event × Nat))
    (c c' : CacheConfig) (hinv : CacheInv c0 cycles c) (hstep : CacheStep c c') :
    CacheInv c0 cycles c' := by
  obtain ⟨ha, hpend, hlock, hwe, hr, hge, hgb, hobs⟩ := hinv
  cases hstep with
  | wAcq p rest hw hr0 hp =>
    refine ⟨?_, ?_, ?_, ?_, ?_, ?_, ?_, ?_⟩ <;> simp only []
    · intro h; rcases h with h | h <;> simp at h
    · intro q hq; exact hpend q (by rw [hp]; exact List.mem_cons_of_mem p hq)
    · intro q hq
      obtain rfl : p = q := by simpa using hq
      exact hpend _ (by rw [hp]; exact List.mem_cons_self _ _)
    · intro q hq; simp at hq
    · intro hne; rw [hr0] at hne; simp at hne
    · intro l hl; rw [hr0] at hl; simp at hl
    · intro l t hlt; rw [hr0] at hlt; simp at hlt
    · exact hobs
  | wSetEvents p hw =>
    have hrIdle : c.rpc = .idle := by
      by_contra hne
      rw [hr hne] at hw; simp at hw
    refine ⟨?_, hpend, ?_, ?_, ?_, ?_, ?_, hobs⟩ <;> simp only []
    · intro h; rcases h with h | h <;> simp at h
    · intro q hq; simp at hq
    · intro q hq
      obtain rfl : p = q := by simpa using hq
      exact ⟨hlock _ hw, rfl⟩
    · intro hne; rw [hrIdle] at hne; simp at hne
    · intro l hl; rw [hrIdle] at hl; simp at hl
    · intro l t hlt; exact hgb l t hlt
  | wSetTs p hw =>
    have hrIdle : c.rpc = .idle := by
      by_contra hne
      rw [hr hne] at hw; simp at hw
    obtain ⟨hpc, hc1⟩ := hwe p hw
    refine ⟨?_, hpend, ?_, ?_, ?_, ?_, ?_, hobs⟩ <;> simp only []
    · intro _
      right
      have : (c.cache.1, p.2) = p := by rw [hc1]
      rw [this]; exact hpc
    · intro q hq; simp at hq
    · intro q hq; simp at hq
    · intro hne; rw [hrIdle] at hne; simp at hne
    · intro l hl; rw [hrIdle] at hl; simp at hl
    · intro l t hlt; exact hgb l t hlt
  | wRel hw =>
    refine ⟨?_, hpend, ?_, ?_, ?_, ?_, ?_, hobs⟩ <;> simp only []
    · intro _; exact ha (Or.inr hw)
    · intro q hq; simp at hq
    · intro q hq; simp at hq
    · intro _; trivial
    · intro l hl
      have hne : c.rpc ≠ .idle := by rw [hl]; simp
      rw [hr hne] at hw; simp at hw
    · intro l t hlt; exact hgb l t hlt
  | rAcq hri hwi =>
    refine ⟨ha, hpend, hlock, hwe, ?_, ?_, ?_, hobs⟩ <;> simp only []
    · intro _; exact hwi
    · intro l hl; simp at hl
    · intro l t hlt; simp at hlt
  | rReadEvents hrl =>
    refine ⟨ha, hpend, hlock, hwe, ?_, ?_, ?_, hobs⟩ <;> simp only []
    · intro _
      exact hr (by rw [hrl]; simp)
    · intro l hl
      have := hl
      simp only [ReaderPc.gotEvents.injEq] at this
      exact this.symm
    · intro l t hlt; simp at hlt
  | rReadTs l hrl =>
    have hwIdle : c.wpc = .idle := hr (by rw [hrl]; simp)
    refine ⟨ha, hpend, hlock, hwe, ?_, ?_, ?_, hobs⟩ <;> simp only []
    · intro _; exact hwIdle
    · intro l' hl; simp at hl
    · intro l' t' hlt
      simp only [ReaderPc.gotBoth.injEq] at hlt
      obtain ⟨hl', ht'⟩ := hlt
      subst hl'
      subst ht'
      have hl1 : l = c.cache.1 := hge l hrl
      have : (l, c.cache.2) = c.cache := by rw [hl1]
      rw [this]
      exact ha (Or.inl hwIdle)
  | rRel l t hrb =>
    refine ⟨ha, hpend, hlock, hwe, ?_, ?_, ?_, ?_⟩ <;> simp only []
    · intro hne; simp at hne
    · intro l' hl; simp at hl
    · intro l' t' hlt; simp at hlt
    · intro p hp
      rcases List.mem_cons.mp hp with h | h
      · rw [h]; exact hgb l t hrb
      · exact hobs p h

/-- The invariant holds in every reachable configuration. -/
theorem cacheInv_reach (c0 : List Event × Nat) (cycles : List (List Event × Nat))
    (c : CacheConfig) (h : CacheReach c0 cycles c) : CacheInv c0 cycles c := by
  induction h with
  | refl => exact cacheInv_init c0 cycles
  | tail _ hstep ih => exact cacheInv_step c0 cycles _ _ ih hstep

/-! ## The claims -/

/-- C4: a refresh cycle that collected at least one event replaces the
cache event list and timestamp together, and a cycle that collected
nothing leaves both exactly as they were. -/
theorem C4_refresh_frame (responses : List (Option (List Event))) (now : Nat)
    (old : List Event × Nat) :
    (0 < (collectCycleEvents responses).length →
      updateCacheCycle responses now old = (collectCycleEvents responses, now)) ∧
    ((collectCycleEvents responses).length = 0 →
      updateCacheCycle responses now old = old) := by
  constructor
  · intro h
    simp only [updateCacheCycle, if_pos h]
  · intro h
    have hneg : ¬(0 < (collectCycleEvents responses).length) := by omega
    simp only [updateCacheCycle, if_neg hneg]

/-- Witness for C4: one reachable relay with one event replaces the cache;
a cycle of one unreachable relay leaves a non-empty cache untouched. -/
theorem C4_refresh_frame_witness :
    updateCacheCycle [some [sampleEvent], none] 7 ([], 0) = ([sampleEvent], 7) ∧
    updateCacheCycle [none] 7 ([sampleEvent], 3) = ([sampleEvent], 3) :=
  ⟨(C4_refresh_frame [some [sampleEvent], none] 7 ([], 0)).1 (by decide),
   (C4_refresh_frame [none] 7 ([sampleEvent], 3)).2 rfl⟩

/-- C5 counterexample: on the input with a period followed by a newline the
code splits (the regex whitespace class covers newline) while the claim's
literal period-space boundary does not, so the two rules disagree. -/
theorem C5_counterexample :
    extractOverlap "A.\nB" = "B." ∧
    specOverlapClaim "A.\nB" = "A.\nB" ∧
    extractOverlap "A.\nB" ≠ specOverlapClaim "A.\nB" := by
  refine ⟨rfl, rfl, ?_⟩
  intro h
  rw [show extractOverlap "A.\nB" = "B." from rfl,
    show specOverlapClaim "A.\nB" = "A.\nB" from rfl] at h
  simp at h

/-- C5 (amended): overlap extraction follows the claim's rule with the
boundary amended from the literal two-character separators to a
punctuation character followed by a whitespace run (the whole run being
consumed): 0 or 1 sentences gives the content verbatim, a short last
sentence with more than two sentences gives the last two sentences joined
by period-space with a period appended, and otherwise the last sentence
with a period appended. -/
theorem C5_overlap_rule (text : String) :
    extractOverlap text = specOverlapAmended text := by
  simp only [extractOverlap, specOverlapAmended]
  rw [getD_length_sub_one, drop_length_sub_two]

/-- C6 counterexample: the code appends a period to a last sentence that
already ends in one, so the overlap of the spec's example carries a double
period, not the claimed single one. -/
theorem C6_counterexample :
    extractOverlap "This is one. This is two. Ok." = "This is two. Ok.." ∧
    extractOverlap "This is one. This is two. Ok." ≠ "This is two. Ok." := by
  refine ⟨rfl, ?_⟩
  intro h
  rw [show extractOverlap "This is one. This is two. Ok." = "This is two. Ok.." from rfl] at h
  simp at h

/-- C6 (amended): on the input of the spec's example, overlap extraction
returns the last two sentences joined by period-space with a trailing
period appended, which is the double-period string. -/
theorem C6_overlap_example :
    extractOverlap "This is one. This is two. Ok." = "This is two. Ok.." := rfl

/-- C8: lineage flattening splits on the greater-than delimiter, trims
each part, drops empties and rejoins; the stated examples hold, and the
empty lineage yields the root marker. -/
theorem C8_lineage_flattening :
    (∀ lineage : String, extractParentHeaders lineage = specLineageFlatten lineage) ∧
    extractParentHeaders " A > B >C " = "A > B > C" ∧
    extractParentHeaders "" = "Root" := by
  refine ⟨?_, rfl, rfl⟩
  intro lineage
  unfold extractParentHeaders specLineageFlatten
  by_cases h : lineage = ""
  · rw [if_pos h, if_pos h]
  · rw [if_neg h, if_neg h]
    congr 1
    induction goSplitOnGt lineage.data [] with
    | nil => rfl
    | cons p ps ih =>
      by_cases hp : goTrimSpace p = ""
      · rw [List.map_cons, List.filter_cons,
          List.filterMap_cons_none (by rw [if_pos hp]),
          if_neg (by simp [hp])]
        exact ih
      · rw [List.map_cons, List.filter_cons,
          List.filterMap_cons_some (by rw [if_neg hp]),
          if_pos (by simp [hp]), ih]

/-- C7: the query matcher returns true exactly when the query is empty (or
empty after normalization), or the normalized query is 2 to 10 characters
long and occurs in the content or a tag value, or some word of length at
least 2 occurs there; in particular the query ndk matches content
containing NDK, and a long absent word does not match. -/
theorem C7_matchesQuery_iff :
    (∀ (ev : Event) (query : String),
      matchesQuery ev query = true ↔ specMatchesQuery ev query) ∧
    matchesQuery ndkEvent "ndk" = true ∧
    matchesQuery unrelatedEvent "xyz123longword" = false :=
  ⟨matchesQuery_iff_spec, rfl, rfl⟩

/-- C9: the handler fails with the validation error exactly when language,
author and query are all empty, and otherwise returns an ok outcome
whatever the cache and relay responses hold. -/
theorem C9_validation_iff (cache : List Event)
    (qresponses responses : List (List Event)) (decodeNpub : String → Option String)
    (language author query : String) (limit : Int) :
    (searchCodeSnippetsHandler cache qresponses responses decodeNpub
        language author query limit = .error validationErrorMsg ↔
      (language = "" ∧ author = "" ∧ query = "")) ∧
    (¬(language = "" ∧ author = "" ∧ query = "") →
      ∃ evs net, searchCodeSnippetsHandler cache qresponses responses decodeNpub
        language author query limit = .ok evs net) := by
  by_cases hval : language = "" ∧ author = "" ∧ query = ""
  · constructor
    · simp only [searchCodeSnippetsHandler, if_pos hval]
      exact ⟨fun _ => hval, fun _ => by trivial⟩
    · intro h
      exact absurd hval h
  · have hok : ∃ evs net, searchCodeSnippetsHandler cache qresponses responses decodeNpub
        language author query limit = .ok evs net := by
      simp only [searchCodeSnippetsHandler, if_neg hval]
      split
      · exact ⟨_, _, rfl⟩
      · split
        · split
          · exact ⟨_, _, rfl⟩
          · exact ⟨_, _, rfl⟩
        · exact ⟨_, _, rfl⟩
    refine ⟨⟨?_, ?_⟩, fun _ => hok⟩
    · intro h
      obtain ⟨evs, net, hok'⟩ := hok
      rw [hok'] at h
      cases h
    · intro h
      exact absurd h hval

/-- Witness for C9: all-empty filters produce the validation error; a
language filter alone produces an ok outcome. -/
theorem C9_validation_iff_witness :
    searchCodeSnippetsHandler [sampleEvent] [] [] (fun _ => none) "" "" "" 3 =
      .error validationErrorMsg ∧
    ∃ evs net, searchCodeSnippetsHandler [sampleEvent] [] [] (fun _ => none)
      "go" "" "" 3 = .ok evs net :=
  ⟨(C9_validation_iff [sampleEvent] [] [] (fun _ => none) "" "" "" 3).1.mpr
      ⟨rfl, rfl, rfl⟩,
   (C9_validation_iff [sampleEvent] [] [] (fun _ => none) "go" "" "" 3).2
      (by simp)⟩

/-- C10: the handler never validates the limit; with a non-positive limit
and a cache holding a matching event (and at least one filter provided, so
the scan is reached), the scan appends its first match before testing the
limit and the call returns exactly one result from the cache-sufficient
branch. -/
theorem C10_limit_unvalidated (cache : List Event)
    (qresponses responses : List (List Event)) (decodeNpub : String → Option String)
    (language author query : String) (limit : Int)
    (hval : ¬(language = "" ∧ author = "" ∧ query = ""))
    (hlim : limit ≤ 0)
    (hmatch : ∃ ev ∈ cache,
      cacheEventMatches language (processAuthor decodeNpub author) query ev = true) :
    ∃ evs : List Event,
      searchCodeSnippetsHandler cache qresponses responses decodeNpub
        language author query limit = .ok evs false ∧ evs.length = 1 := by
  have hcne : ¬(cache.isEmpty = true) := by
    obtain ⟨ev, hmem, -⟩ := hmatch
    intro he
    rw [List.isEmpty_iff] at he
    rw [he] at hmem
    cases hmem
  have hlen : (searchCachedEvents cache language (processAuthor decodeNpub author)
      query limit).length = 1 := by
    unfold searchCachedEvents
    rw [if_neg hcne]
    exact searchCachedGo_limit_nonpos _ _ _ limit hlim cache hmatch
  refine ⟨searchCachedEvents cache language (processAuthor decodeNpub author) query limit,
    ?_, hlen⟩
  simp only [searchCodeSnippetsHandler, if_neg hval]
  rw [if_pos ?hge]
  case hge =>
    rw [hlen]
    simp only [Nat.cast_one]
    omega

/-- Witness for C10: with limit zero and one matching cached event the
handler returns that one event from the cache. -/
theorem C10_limit_unvalidated_witness :
    ∃ evs : List Event,
      searchCodeSnippetsHandler [sampleEvent] [] [] (fun _ => none)
        "go" "" "" 0 = .ok evs false ∧ evs.length = 1 :=
  C10_limit_unvalidated [sampleEvent] [] [] (fun _ => none) "go" "" "" 0
    (by simp) (by omega)
    ⟨sampleEvent, List.mem_cons_self sampleEvent [], by decide⟩

/-- C1 counterexample: with limit zero (the claim quantifies over every
call and the code never validates the limit), one matching cached event
makes the cache-lookup phase find at least limit events, yet the call
returns one result, not limit-many. -/
theorem C1_counterexample :
    ((([sampleEvent].filter (cacheEventMatches "go" "" "")).length : Int) ≥ 0) ∧
    searchCodeSnippetsHandler [sampleEvent] [] [] (fun _ => none) "go" "" "" 0 =
      .ok [sampleEvent] false ∧
    (([sampleEvent] : List Event).length : Int) ≠ 0 := by
  refine ⟨by decide, rfl, by decide⟩

/-- C1 (amended): for every call with a positive limit in which the cache
holds at least limit events satisfying all provided filters (after npub
decoding of the author), the handler returns exactly limit results from
the cache and contacts no relay. -/
theorem C1_cache_sufficient (cache : List Event)
    (qresponses responses : List (List Event)) (decodeNpub : String → Option String)
    (language author query : String) (limit : Int)
    (hval : ¬(language = "" ∧ author = "" ∧ query = ""))
    (hlim : 1 ≤ limit)
    (hcnt : ((cache.filter
        (cacheEventMatches language (processAuthor decodeNpub author) query)).length : Int) ≥ limit) :
    ∃ evs : List Event,
      searchCodeSnippetsHandler cache qresponses responses decodeNpub
        language author query limit = .ok evs false ∧ (evs.length : Int) = limit := by
  have hcne : ¬(cache.isEmpty = true) := by
    intro he
    rw [List.isEmpty_iff] at he
    rw [he] at hcnt
    simp only [List.filter_nil, List.length_nil, Nat.cast_zero] at hcnt
    omega
  have hlen : ((searchCachedEvents cache language (processAuthor decodeNpub author)
      query limit).length : Int) = limit := by
    unfold searchCachedEvents
    rw [if_neg hcne]
    apply searchCachedGo_length_eq
    · simp only [List.length_nil, Nat.cast_zero]
      omega
    · simp only [List.length_nil, Nat.cast_zero]
      omega
  refine ⟨searchCachedEvents cache language (processAuthor decodeNpub author) query limit,
    ?_, hlen⟩
  simp only [searchCodeSnippetsHandler, if_neg hval]
  rw [if_pos (ge_of_eq hlen)]

/-- Witness for C1: a cache of one matching event with limit one returns
exactly that event without touching the network. -/
theorem C1_cache_sufficient_witness :
    ∃ evs : List Event,
      searchCodeSnippetsHandler [sampleEvent] [] [] (fun _ => none)
        "go" "" "" 1 = .ok evs false ∧ (evs.length : Int) = 1 :=
  C1_cache_sufficient [sampleEvent] [] [] (fun _ => none) "go" "" "" 1
    (by simp) (by omega) (by decide)

/-- C2 counterexample: on the merge path (one cached match, limit two, a
query-only filter) the live fetch is redirected through the cache re-check
and the very same event is concatenated to itself: the returned list holds
two events with the same id. -/
theorem C2_counterexample :
    searchCodeSnippetsHandler [sampleEvent] [] [] (fun _ => none) "" "" "hello" 2 =
      .ok [sampleEvent, sampleEvent] false ∧
    ¬(([sampleEvent, sampleEvent].map (fun ev => ev.id)).Nodup) := by
  refine ⟨rfl, by decide⟩

/-- C2 (amended): for every call with a positive limit, the returned
result list has size at most limit (the merge path concatenates cache and
live results and truncates to limit, but does not deduplicate by id, so
the same event id can occur twice there; deduplication happens only inside
the query-only live loop). -/
theorem C2_size_le_limit (cache : List Event)
    (qresponses responses : List (List Event)) (decodeNpub : String → Option String)
    (language author query : String) (limit : Int) (hlim : 1 ≤ limit)
    (evs : List Event) (net : Bool)
    (hok : searchCodeSnippetsHandler cache qresponses responses decodeNpub
      language author query limit = .ok evs net) :
    (evs.length : Int) ≤ limit := by
  simp only [searchCodeSnippetsHandler] at hok
  split at hok
  · cases hok
  · split at hok
    · obtain ⟨h1, -⟩ := HandlerOutcome.ok.inj hok
      rw [← h1]
      exact searchCachedEvents_length_le cache language _ query limit hlim
    · split at hok
      · split at hok
        · obtain ⟨h1, -⟩ := HandlerOutcome.ok.inj hok
          rw [← h1]
          exact searchByQueryOnly_length_le cache qresponses query limit hlim
        · obtain ⟨h1, -⟩ := HandlerOutcome.ok.inj hok
          rw [← h1]
          exact searchRelayEvents_length_le cache qresponses responses
            language _ query limit hlim
      · obtain ⟨h1, -⟩ := HandlerOutcome.ok.inj hok
        rw [← h1]
        have h3 : ((limit.toNat : Int)) = limit := Int.toNat_of_nonneg (by omega)
        split
        · next hgt =>
          simp only [List.length_take]
          exact le_trans (by exact_mod_cast Nat.min_le_left _ _) (le_of_eq h3)
        · next hgt =>
          omega

/-- Witness for C2: a concrete ok outcome of length at most the limit. -/
theorem C2_size_le_limit_witness :
    (([sampleEvent, sampleEvent] : List Event).length : Int) ≤ 2 :=
  C2_size_le_limit [sampleEvent] [] [] (fun _ => none) "" "" "hello" 2
    (by omega) [sampleEvent, sampleEvent] false rfl

/-- C3: in the lock machine of the snippet cache, every observation a
reader completes is a consistent snapshot: the initial cache pair or the
payload pair of some refresh cycle, never a mixture such as new events
with an old timestamp. -/
theorem C3_cache_atomicity (c0 : List Event × Nat) (cycles : List (List Event × Nat))
    (c : CacheConfig) (hreach : CacheReach c0 cycles c) :
    ∀ p ∈ c.obs, ConsistentPair c0 cycles p :=
  fun p hp => (cacheInv_reach c0 cycles c hreach).2.2.2.2.2.2.2 p hp

/-- Witness for C3: a full writer cycle followed by a full reader session
reaches a configuration whose single observation is the cycle's payload,
a consistent pair. -/
theorem C3_cache_atomicity_witness :
    CacheReach ([], 0) [([sampleEvent], 5)]
      { cache := ([sampleEvent], 5), wpc := .idle, pending := [],
        rpc := .idle, obs := [([sampleEvent], 5)] } ∧
    ConsistentPair ([], 0) [([sampleEvent], 5)] ([sampleEvent], 5) := by
  have hreach : CacheReach ([], 0) [([sampleEvent], 5)]
      { cache := ([sampleEvent], 5), wpc := .idle, pending := [],
        rpc := .idle, obs := [([sampleEvent], 5)] } := by
    apply Relation.ReflTransGen.head (CacheStep.wAcq _ ([sampleEvent], 5) [] rfl rfl rfl)
    apply Relation.ReflTransGen.head (CacheStep.wSetEvents _ ([sampleEvent], 5) rfl)
    apply Relation.ReflTransGen.head (CacheStep.wSetTs _ ([sampleEvent], 5) rfl)
    apply Relation.ReflTransGen.head (CacheStep.wRel _ rfl)
    apply Relation.ReflTransGen.head (CacheStep.rAcq _ rfl rfl)
    apply Relation.ReflTransGen.head (CacheStep.rReadEvents _ rfl)
    apply Relation.ReflTransGen.head (CacheStep.rReadTs _ [sampleEvent] rfl)
    apply Relation.ReflTransGen.head (CacheStep.rRel _ [sampleEvent] 5 rfl)
    exact Relation.ReflTransGen.refl
  exact ⟨hreach,
    C3_cache_atomicity ([], 0) [([sampleEvent], 5)] _ hreach ([sampleEvent], 5)
      (List.mem_cons_self _ _)⟩

end BeatingHeart
